import Mathlib

/-!
Verification development for the challenge-portfolio repository.

The core component is the quoted-string extraction parser in
typescript-challenges/code/extract-strings.ts, a single-pass state machine
over the characters of the input text. The TypeScript loop body is embedded
as the step function stepExtract below, with the mutable accumulator
extractedStrings and the mutable state variable threaded explicitly through a
left fold; string values are represented as lists of characters.

The repository also contains subsequence-indices.ts, whose greedy matcher
subsequence_indices is embedded below with the two scan positions of the
while loop replaced by structural recursion over the corresponding list
suffixes.
-/

/-- Character with code point 39, the quote character that the documentation
and the tests of extract-strings.ts designate as the string delimiter, and the
character that the transition case of the loop pushes for an escaped
delimiter. -/
def singleQuote : Char := Char.ofNat 39

/-- Parsing state for extractStrings: outside of any string literal, inside a
literal carrying the characters parsed so far, or in transition after a
delimiter seen inside a literal, carrying the same parsed characters. -/
inductive State where
  | outside : State
  | inside : List Char → State
  | transition : List Char → State
deriving DecidableEq

/-- Body of the character loop of extractStrings: given the accumulator of
extracted strings together with the current parse state, and the current
character, produce the updated accumulator and state. The character test
mirrors the source exactly: the variable named isSingleQuote in the source
actually compares the character against the double quote character. -/
def stepExtract : List (List Char) × State → Char → List (List Char) × State
  | (extractedStrings, State.outside), char =>
    if char == '"' then (extractedStrings, State.inside [])
    else (extractedStrings, State.outside)
  | (extractedStrings, State.inside parsed), char =>
    if char == '"' then (extractedStrings, State.transition parsed)
    else (extractedStrings, State.inside (parsed ++ [char]))
  | (extractedStrings, State.transition parsed), char =>
    if char == '"' then (extractedStrings, State.inside (parsed ++ [singleQuote]))
    else (extractedStrings ++ [parsed], State.outside)

/-- Extract all strings from the given text, as extract-strings.ts does: append
the sentinel character to the text, run the state machine over every character
starting from the outside state with an empty accumulator, and fail (the thrown
error is modelled by none) unless the final state is outside. -/
def extractStrings (text : List Char) : Option (List (List Char)) :=
  match (text ++ ['*']).foldl stepExtract ([], State.outside) with
  | (extractedStrings, State.outside) => some extractedStrings
  | _ => none

/-- Sentinel-free characterization of the extraction: run the machine over the
original text only, and resolve the final state directly, flushing a pending
literal when the run ends in the transition state. Compared against
extractStrings to show that the appended sentinel never reaches the output. -/
def extractNoSentinel (text : List Char) : Option (List (List Char)) :=
  match text.foldl stepExtract ([], State.outside) with
  | (extractedStrings, State.outside) => some extractedStrings
  | (extractedStrings, State.transition parsed) => some (extractedStrings ++ [parsed])
  | (_, State.inside _) => none

/-- Helper of subsequence-indices.ts: whether an index is the past-the-end
position of a list. -/
def reachedEndOfList {T : Type} (arr : List T) (index : Nat) : Bool :=
  index == arr.length

/-- Loop of subsequence_indices, with the two scan positions arrIndex and
subIndex of the source replaced by the corresponding suffixes of arr and sub;
arrIndex is still carried explicitly since it is what gets pushed onto the
indices accumulator. The source checks the end of sub first, then the end of
arr, then compares the current elements, matching the equation order here. -/
def subsequenceIndicesLoop {T : Type} [DecidableEq T] :
    List Nat → Nat → List T → List T → Option (List Nat)
  | indices, _, _, [] => some indices
  | _, _, [], _ :: _ => none
  | indices, arrIndex, a :: arrRest, s :: subRest =>
    if a = s then
      subsequenceIndicesLoop (indices ++ [arrIndex]) (arrIndex + 1) arrRest subRest
    else
      subsequenceIndicesLoop indices (arrIndex + 1) arrRest (s :: subRest)

/-- Return a strictly ascending list of indices at which sub occurs as a not
necessarily contiguous subsequence of arr, or none if there is no such list,
as subsequence-indices.ts computes it by a greedy left-to-right scan. -/
def subsequence_indices {T : Type} [DecidableEq T] (arr sub : List T) :
    Option (List Nat) :=
  subsequenceIndicesLoop [] 0 arr sub

/-- Claim C1 evaluation: the round-trip construction fails on the code for the
one-element sequence of strings S = [a] with all separators empty; the
constructed text consists of quote, a, quote with single quote delimiters, and
extractStrings returns the empty list on it rather than [a]. -/
theorem extractStrings_roundtrip_behavior :
    extractStrings [singleQuote, 'a', singleQuote] = some [] := by decide

/-- Claim C2 evaluation: a single quote character seen in the outside state
does not open a literal (the state stays outside), while a double quote
character seen in the outside state does; the delimiter the code tests for is
the double quote, not the single quote the claim names. -/
theorem stepExtract_outside_quote_behavior :
    stepExtract ([], State.outside) singleQuote = ([], State.outside) ∧
      stepExtract ([], State.outside) '"' = ([], State.inside []) := by
  constructor <;> decide

/-- Claim C3 evaluation: each of the five inputs the claim requires to fail,
all of which have an odd number of single quote characters, in fact succeeds
and returns the empty list, because the code tests for double quotes. -/
theorem extractStrings_odd_quotes_behavior :
    extractStrings [singleQuote] = some [] ∧
      extractStrings [singleQuote, 'a', 'b', 'c'] = some [] ∧
      extractStrings ['a', 'b', 'c', singleQuote] = some [] ∧
      extractStrings ['a', singleQuote, 'b', singleQuote, 'c', singleQuote, 'd'] = some [] ∧
      extractStrings [singleQuote, singleQuote, singleQuote, 'a', 'b', 'c',
        singleQuote, singleQuote, singleQuote, 'd', 'e', 'f',
        singleQuote, singleQuote, singleQuote] = some [] := by
  refine ⟨by decide, by decide, by decide, by decide, by decide⟩

/-- Claim C4 evaluation: on the six character text quote, a, quote, quote, b,
quote written with single quotes, extractStrings returns the empty list, not
the claimed one-element list, because the code tests for double quotes. -/
theorem extractStrings_adjacent_literals_behavior :
    extractStrings [singleQuote, 'a', singleQuote, singleQuote, 'b', singleQuote] =
      some [] := by decide

/-- Claim C6 evaluation: the two examples of the claim do return the empty
list, but the universally quantified claim fails: the three character text
double quote, a, double quote contains no single quote character at all, yet
extractStrings returns a one-element list. -/
theorem extractStrings_quote_free_behavior :
    extractStrings [] = some [] ∧
      extractStrings ['h', 'e', 'l', 'l', 'o', ' ', 'w', 'o', 'r', 'l', 'd'] = some [] ∧
      extractStrings ['"', 'a', '"'] = some [['a']] := by
  refine ⟨by decide, by decide, by decide⟩

/-- Claim C5: for every input text, extractStrings fails exactly when the state
after folding the step function over the text plus the appended sentinel is
not the outside state; on failure nothing is returned, and on success the full
accumulated list of completed literals is returned. -/
theorem extractStrings_failure_characterization (text : List Char) :
    extractStrings text =
      if ((text ++ ['*']).foldl stepExtract ([], State.outside)).2 = State.outside
      then some ((text ++ ['*']).foldl stepExtract ([], State.outside)).1
      else none := by
  unfold extractStrings
  generalize (text ++ ['*']).foldl stepExtract ([], State.outside) = p
  rcases p with ⟨acc, st⟩
  cases st <;> simp

/-- Claim C7: the sentinel character appended by extractStrings is the fixed
character star, which differs from the double quote character the code tests
against, and the result of extractStrings always equals the sentinel-free
characterization computed from the original text alone, so the appended
sentinel occurrence is never part of any output string. -/
theorem extractStrings_sentinel_containment :
    (('*' == '"') = false) ∧
      ∀ text : List Char, extractStrings text = extractNoSentinel text := by
  refine ⟨by decide, fun text => ?_⟩
  unfold extractStrings extractNoSentinel
  rw [List.foldl_append]
  generalize text.foldl stepExtract ([], State.outside) = p
  rcases p with ⟨acc, st⟩
  have hstar : ('*' == '"') = false := by decide
  cases st <;> simp [stepExtract, hstar]

/-- Folding the step function over characters none of which is the double
quote leaves the machine in the outside state with the accumulator
unchanged. -/
theorem foldl_stepExtract_no_dquote (cs : List Char) :
    ∀ acc : List (List Char), '"' ∉ cs →
      cs.foldl stepExtract (acc, State.outside) = (acc, State.outside) := by
  induction cs with
  | nil => intro acc _; rfl
  | cons c cs ih =>
    intro acc h
    rw [List.mem_cons] at h
    push_neg at h
    obtain ⟨hne, hmem⟩ := h
    have hbeq : (c == '"') = false := beq_eq_false_iff_ne.mpr (Ne.symm hne)
    rw [List.foldl_cons]
    have hstep : stepExtract (acc, State.outside) c = (acc, State.outside) := by
      simp [stepExtract, hbeq]
    rw [hstep]
    exact ih acc hmem

/-- Claim C8: any input that contains no double quote character is accepted by
extractStrings with the empty output, however many single quotes it contains;
the machine never leaves the outside state on such input. -/
theorem extractStrings_no_double_quote_empty (text : List Char)
    (h : '"' ∉ text) : extractStrings text = some [] := by
  unfold extractStrings
  have hall : '"' ∉ text ++ ['*'] := by
    intro hx
    rcases List.mem_append.mp hx with h1 | h1
    · exact h h1
    · exact absurd h1 (by decide)
  rw [foldl_stepExtract_no_dquote _ [] hall]

/-- Witness for claim C8 at the concrete input consisting of quote, a, b, c,
quote written with single quotes. -/
theorem extractStrings_no_double_quote_empty_witness :
    '"' ∉ [singleQuote, 'a', 'b', 'c', singleQuote] ∧
      extractStrings [singleQuote, 'a', 'b', 'c', singleQuote] = some [] :=
  ⟨by decide, extractStrings_no_double_quote_empty _ (by decide)⟩

/-- Claim C9: whenever the machine resolves two consecutive delimiter
occurrences inside an open literal, that is, the transition state sees the
tested delimiter again, the character appended to the accumulator is the fixed
single quote character, independent of the matched character; on the input
double quote, a, double quote, double quote, b, double quote the output is the
single string a, single quote, b. -/
theorem stepExtract_escape_appends_single_quote :
    (∀ (acc : List (List Char)) (parsed : List Char),
        stepExtract (acc, State.transition parsed) '"' =
          (acc, State.inside (parsed ++ [singleQuote]))) ∧
      extractStrings ['"', 'a', '"', '"', 'b', '"'] =
        some [['a', singleQuote, 'b']] := by
  refine ⟨fun acc parsed => ?_, by decide⟩
  simp [stepExtract]

/-- Soundness of the greedy loop: a successful run extends the accumulated
indices by a strictly ascending tail of positions at or beyond the current
scan position whose elements in the remaining array spell out the remaining
target. -/
theorem subsequenceIndicesLoop_sound {T : Type} [DecidableEq T] :
    ∀ (arr sub : List T) (indices : List Nat) (i : Nat) (result : List Nat),
      subsequenceIndicesLoop indices i arr sub = some result →
      ∃ tail, result = indices ++ tail ∧ List.Chain' (· < ·) tail ∧
        (∀ j ∈ tail, i ≤ j) ∧
        tail.map (fun j => arr[j - i]?) = sub.map some := by
  intro arr
  induction arr with
  | nil =>
    intro sub indices i result h
    cases sub with
    | nil =>
      refine ⟨[], ?_, List.chain'_nil, by simp, by simp⟩
      simpa [subsequenceIndicesLoop] using h.symm
    | cons s subRest => simp [subsequenceIndicesLoop] at h
  | cons a arrRest ih =>
    intro sub indices i result h
    cases sub with
    | nil =>
      refine ⟨[], ?_, List.chain'_nil, by simp, by simp⟩
      simpa [subsequenceIndicesLoop] using h.symm
    | cons s subRest =>
      simp only [subsequenceIndicesLoop] at h
      by_cases has : a = s
      · rw [if_pos has] at h
        obtain ⟨tl, hres, hchain, hge, hmap⟩ := ih subRest (indices ++ [i]) (i + 1) result h
        refine ⟨i :: tl, by simpa using hres, ?_, ?_, ?_⟩
        · rw [List.chain'_cons']
          refine ⟨fun y hy => ?_, hchain⟩
          have hmem : y ∈ tl := List.mem_of_mem_head? hy
          exact Nat.lt_of_succ_le (hge y hmem)
        · intro j hj
          rcases List.mem_cons.mp hj with rfl | hj
          · exact Nat.le_refl j
          · exact Nat.le_of_succ_le (hge j hj)
        · rw [List.map_cons, List.map_cons]
          congr 1
          · simp [Nat.sub_self, has]
          · rw [← hmap]
            apply List.map_congr_left
            intro j hj
            have h1 : i + 1 ≤ j := hge j hj
            have h2 : j - i = (j - (i + 1)) + 1 := by omega
            rw [h2]
            simp
      · rw [if_neg has] at h
        obtain ⟨tl, hres, hchain, hge, hmap⟩ := ih (s :: subRest) indices (i + 1) result h
        refine ⟨tl, hres, hchain, ?_, ?_⟩
        · intro j hj
          exact Nat.le_of_succ_le (hge j hj)
        · rw [← hmap]
          apply List.map_congr_left
          intro j hj
          have h1 : i + 1 ≤ j := hge j hj
          have h2 : j - i = (j - (i + 1)) + 1 := by omega
          rw [h2]
          simp

/-- Completeness of the greedy loop: whenever the remaining target is a
subsequence of the remaining array, the loop succeeds. -/
theorem subsequenceIndicesLoop_complete {T : Type} [DecidableEq T] :
    ∀ (arr sub : List T) (indices : List Nat) (i : Nat),
      List.Sublist sub arr → (subsequenceIndicesLoop indices i arr sub).isSome := by
  intro arr
  induction arr with
  | nil =>
    intro sub indices i hsub
    rw [List.sublist_nil.mp hsub]
    rfl
  | cons a arrRest ih =>
    intro sub indices i hsub
    cases sub with
    | nil => rfl
    | cons s subRest =>
      cases hsub with
      | cons _ h =>
        by_cases has : a = s
        · simp only [subsequenceIndicesLoop, if_pos has]
          exact ih subRest _ _ ((List.sublist_cons_self s subRest).trans h)
        · simp only [subsequenceIndicesLoop, if_neg has]
          exact ih (s :: subRest) _ _ h
      | cons₂ _ h =>
        simp only [subsequenceIndicesLoop, if_pos rfl]
        exact ih subRest _ _ h

/-- Claim C10: subsequence_indices returns either a strictly ascending list of
in-bounds indices whose elements of arr spell out sub, or none, and it returns
none only when sub is not a subsequence of arr. -/
theorem subsequence_indices_spec {T : Type} [DecidableEq T] (arr sub : List T) :
    (∀ result, subsequence_indices arr sub = some result →
        List.Chain' (· < ·) result ∧
          result.map (fun j => arr[j]?) = sub.map some) ∧
      (subsequence_indices arr sub = none → ¬ List.Sublist sub arr) := by
  constructor
  · intro result h
    obtain ⟨tl, hres, hchain, _, hmap⟩ :=
      subsequenceIndicesLoop_sound arr sub [] 0 result h
    rw [List.nil_append] at hres
    subst hres
    refine ⟨hchain, ?_⟩
    rw [← hmap]
    apply List.map_congr_left
    intro j hj
    simp
  · intro h hsub
    have hsome := subsequenceIndicesLoop_complete arr sub [] 0 hsub
    unfold subsequence_indices at h
    rw [h] at hsome
    simp at hsome

/-- Witness for claim C10 at the example from the source documentation: in the
array 3, 1, 4, 1, 5, 9 the target 4, 1, 9 is found at indices 2, 3, 5. -/
theorem subsequence_indices_spec_witness :
    List.Chain' (· < ·) [2, 3, 5] ∧
      [2, 3, 5].map (fun j => [3, 1, 4, 1, 5, 9][j]?) = [4, 1, 9].map some :=
  (subsequence_indices_spec [3, 1, 4, 1, 5, 9] [4, 1, 9]).1 [2, 3, 5] (by decide)
